import Mathlib

/-!
Verification of the content-duplicate detection engine (`copies.rs`,
`duplicates.rs`).

The filesystem is modelled as a fixed map from paths to optional byte
contents: `fs p = some c` means reading path `p` succeeds with bytes `c`,
and `fs p = none` means every open/read of `p` fails.  Paths are opaque
keys (`Nat`), bytes are `Fin 256` (Rust `u8`).  `HashMap` bucketing is
modelled by an association list updated in insertion order
(`insertEntry` mirrors `map.entry(k).or_insert(vec![]).push(v)`); the
claims under study are order-independent, so the deterministic ordering
of the model is harmless.  Machine integers (`usize`) are modelled as
`Nat`; the shift in the fingerprint key packing masks its amount modulo
the 64-bit width, matching release-mode Rust semantics, and the shift
amounts themselves are exposed by `keyShifts` so that overflow (a
debug-mode panic in Rust) can be stated.
-/

namespace DetectDup

/-- Opaque file path, as in `PathBuf`: only equality matters. -/
abbrev Path := Nat

/-- File contents: a byte string (`Vec<u8>`). -/
abbrev Contents := List (Fin 256)

/-- The filesystem: `some c` = readable with contents `c`, `none` = any
open/read/metadata access of this path fails. -/
abbrev FS := Path → Option Contents

/-- `PathIoError` from `copies.rs`: an I/O error tagged with the path it
occurred for.  The underlying `std::io::Error` carries no information
relevant to the claims, so only the path is kept. -/
structure PathIoError where
  path : Path
deriving DecidableEq

/-- `map.entry(k).or_insert(vec![]).push(v)` on an association-list model
of `HashMap<κ, Vec<Path>>`: append `v` to the bucket keyed `k`, creating
the bucket if absent. -/
def insertEntry {κ : Type} [DecidableEq κ] (k : κ) (v : Path) :
    List (κ × List Path) → List (κ × List Path)
  | [] => [(k, [v])]
  | e :: rest => if k = e.1 then (e.1, e.2 ++ [v]) :: rest else e :: insertEntry k v rest

/-- The per-path loop shared by `get_copies` and `get_copies_hashed`:
fold over the paths, keying each readable path by `f` (full contents,
or fingerprint) and recording a `PathIoError` for each failing path. -/
def keyedFold {κ : Type} [DecidableEq κ] (f : Path → Option κ)
    (acc : List (κ × List Path) × List PathIoError) :
    List Path → List (κ × List Path) × List PathIoError
  | [] => acc
  | p :: ps =>
    match f p with
    | some k => keyedFold f (insertEntry k p acc.1, acc.2) ps
    | none => keyedFold f (acc.1, acc.2 ++ [⟨p⟩]) ps

/-- The bucket-map component of `keyedFold` (used on its own by
`get_duplicates`, which drops read errors). -/
def keyedGroup {κ : Type} [DecidableEq κ] (f : Path → Option κ)
    (m : List (κ × List Path)) : List Path → List (κ × List Path)
  | [] => m
  | p :: ps =>
    match f p with
    | some k => keyedGroup f (insertEntry k p m) ps
    | none => keyedGroup f m ps

/-- All bucket members, in bucket order: `map.values()` flattened. -/
def bucketsJoin {κ : Type} (m : List (κ × List Path)) : List Path :=
  (m.map Prod.snd).flatten

/-- Sampling positions of the small-file branch of `get_fingerprint`:
`for i in (0..len).step_by((len / 8).max(1))`. -/
def sampleIndices (len : Nat) : List Nat :=
  (List.range len).filter (fun i => decide (i % (max (len / 8) 1) = 0))

/-- Bytes collected by the small-file branch of `get_fingerprint`. -/
def smallSample (bytes : Contents) : Contents :=
  (sampleIndices bytes.length).map (fun i => bytes.getD i 0)

/-- One pass of the large-file sampling loop of `get_fingerprint`:
at each of the remaining `k` steps, `read_exact` a 2-byte buffer at the
current offset `pos` (failing if fewer than 2 bytes remain), then seek
forward by `step` relative to the position after the read. -/
def largeLoop (bytes : Contents) (step : Nat) : Nat → Nat → Option Contents
  | 0, _ => some []
  | k + 1, pos =>
    if pos + 2 ≤ bytes.length then
      match largeLoop bytes step k (pos + (2 + step)) with
      | some rest => some (bytes.getD pos 0 :: bytes.getD (pos + 1) 0 :: rest)
      | none => none
    else none

/-- Bytes collected by the large-file branch of `get_fingerprint`:
`steps = 4`, `read_size = 8 / steps = 2`, `step = len / steps`. -/
def largeSample (bytes : Contents) : Option Contents :=
  largeLoop bytes (bytes.length / 4) 4 0

/-- Bit width of `usize` on the 64-bit targets the crate runs on. -/
def usizeBits : Nat := 64

/-- The shift amounts `i << 3` used by the key-packing loop of
`get_fingerprint`, one per sampled byte. -/
def keyShifts (contents : Contents) : List Nat :=
  (List.range contents.length).map (fun i => i * 8)

/-- The key-packing loop of `get_fingerprint`:
`key |= (c as usize) << (i << 3)`.  In release mode Rust masks an
overflowing shift amount modulo the bit width, modelled by `% usizeBits`
(in debug mode a shift amount of 64 or more panics instead; see
`keyShifts`). -/
def packKey (contents : Contents) : Nat :=
  contents.enum.foldl (fun key ic => key ||| ((ic.2 : Nat) <<< (ic.1 * 8 % usizeBits))) 0

/-- `get_fingerprint` as a function of the file contents (file length is
taken from metadata, which in the model always agrees with the
contents). -/
def fingerprintContents (bytes : Contents) : Option (Nat × Nat) :=
  if bytes.length = 0 then some (0, 0)
  else if bytes.length ≤ 4096 then some (packKey (smallSample bytes), bytes.length)
  else (largeSample bytes).map (fun cs => (packKey cs, bytes.length))

/-- `get_fingerprint` from `copies.rs`: `File::open` fails exactly on
unreadable paths, otherwise the fingerprint is computed from the
contents. -/
def get_fingerprint (fs : FS) (p : Path) : Option (Nat × Nat) :=
  (fs p).bind fingerprintContents

/-- `get_copies` from `copies.rs`: single-path short-circuit, two-path
direct comparison, otherwise bucket every readable path by its full
contents and return the bucket values together with the read errors. -/
def get_copies (fs : FS) (paths : List Path) : List (List Path) × List PathIoError :=
  match paths with
  | [a] => ([[a]], [])
  | [a, b] =>
    match fs a, fs b with
    | some ca, some cb =>
      if ca = cb then ([[a, b]], []) else ([[a], [b]], [])
    | some _, none => ([[a]], [⟨b⟩])
    | none, some _ => ([[b]], [⟨a⟩])
    | none, none => ([], [⟨a⟩, ⟨b⟩])
  | other =>
    let r := keyedFold fs ([], []) other
    (r.1.map Prod.snd, r.2)

/-- `get_copies_hashed` from `copies.rs`: bucket paths by fingerprint
(recording fingerprint errors), then resolve each candidate bucket with
`get_copies`, concatenating the resulting groups and errors. -/
def get_copies_hashed (fs : FS) (paths : List Path) : List (List Path) × List PathIoError :=
  let r := keyedFold (get_fingerprint fs) ([], []) paths
  (r.1.map Prod.snd).foldl
    (fun acc g => (acc.1 ++ (get_copies fs g).1, acc.2 ++ (get_copies fs g).2))
    ([], r.2)

/-- `get_duplicates` from `duplicates.rs`: bucket readable paths by full
contents (silently skipping unreadable ones) and keep the buckets with
more than one member. -/
def get_duplicates (fs : FS) (paths : List Path) : List (List Path) :=
  ((keyedGroup fs [] paths).map Prod.snd).filter (fun g => decide (1 < g.length))

/-- Bucket key of `get_duplicates_hashed`: `(DefaultHasher hash of the
contents, contents.len())`.  The hash function is an arbitrary parameter
of the model. -/
def contentKey (hash : Contents → Nat) (fs : FS) (p : Path) : Option (Nat × Nat) :=
  (fs p).map (fun c => (hash c, c.length))

/-- `get_duplicates_hashed` from `duplicates.rs`: bucket readable paths
by `(content hash, length)`, keep buckets with more than one member, and
resolve each by `get_duplicates`. -/
def get_duplicates_hashed (hash : Contents → Nat) (fs : FS) (paths : List Path) :
    List (List Path) :=
  ((((keyedGroup (contentKey hash fs) [] paths).map Prod.snd).filter
      (fun g => decide (1 < g.length))).map (get_duplicates fs)).flatten

/-! ### Bucket-map invariants -/

/-- Well-formedness of a bucket map with respect to the keying function
`f`: keys are pairwise distinct, buckets are nonempty, and every bucket
member is keyed to its bucket. -/
def BucketsWF {κ : Type} (f : Path → Option κ) (m : List (κ × List Path)) : Prop :=
  (m.map Prod.fst).Nodup ∧ ∀ e ∈ m, e.2 ≠ [] ∧ ∀ p ∈ e.2, f p = some e.1

/-- The two directions of the spec's equivalence property, relative to a
keying function `f`: any two paths in the same output group have the
same key, and any two paths in different output groups have different
keys.  With `f = fs` the key is the full file contents, so this says
byte-identical contents within a group and differing contents across
groups. -/
def EquivGroups {κ : Type} (f : Path → Option κ) (G : List (List Path)) : Prop :=
  (∀ g ∈ G, ∀ a ∈ g, ∀ b ∈ g, f a = f b) ∧
  G.Pairwise (fun g1 g2 => ∀ a ∈ g1, ∀ b ∈ g2, f a ≠ f b)

/-- `a` and `b` lie in one common group of `G`. -/
def sameGroup (G : List (List Path)) (a b : Path) : Prop :=
  ∃ g ∈ G, a ∈ g ∧ b ∈ g

/-- The byte offsets read by the large-file branch of `get_fingerprint`
on a file of length `len`: 4 sampling steps, each reading a 2-byte chunk
at the current offset and then seeking forward by `len / 4` relative to
the position after the read. -/
def largeSamplePositions (len : Nat) : List Nat :=
  [0, 1, len / 4 + 2, len / 4 + 3, 2 * (len / 4) + 4, 2 * (len / 4) + 5,
   3 * (len / 4) + 6, 3 * (len / 4) + 7]

/-- `a` and `b` are both successfully-read input paths with identical
full contents: the relation that decides co-grouping. -/
def CoGrouped (fs : FS) (paths : List Path) (a b : Path) : Prop :=
  a ∈ paths ∧ b ∈ paths ∧ ∃ c, fs a = some c ∧ fs b = some c

/-- The candidate buckets built by the fingerprint pass of
`get_copies_hashed`. -/
def hashedBuckets (fs : FS) (paths : List Path) : List (List Path) :=
  (keyedGroup (get_fingerprint fs) [] paths).map Prod.snd

/-- The spec's partition property: the members of the output groups are
exactly the successfully-read input paths (as a multiset), and no path
lies in two distinct groups. -/
def PartitionProp (fs : FS) (paths : List Path) (G : List (List Path)) : Prop :=
  (G.flatten).Perm (paths.filter (fun p => (fs p).isSome)) ∧
  G.Pairwise (fun g1 g2 => ∀ p ∈ g1, p ∉ g2)

/-- The spec's error-surfacing property for one result pair `r`: the
error list records exactly the unreadable input paths (each as a
`PathIoError` carrying its path, in input order), unreadable paths are
excluded from every group, and every readable input path still appears
in some group. -/
def ErrProp (fs : FS) (paths : List Path) (r : List (List Path) × List PathIoError) : Prop :=
  r.2 = (paths.filter (fun p => (fs p).isNone)).map PathIoError.mk ∧
  (∀ g ∈ r.1, ∀ p ∈ g, (fs p).isSome) ∧
  (∀ q ∈ paths, (fs q).isSome → ∃ g ∈ r.1, q ∈ g)

/-- Two group lists describe the same partition: same members (as a
multiset) and the same are-grouped-together relation. -/
def samePartition (G1 G2 : List (List Path)) : Prop :=
  (G1.flatten).Perm G2.flatten ∧ ∀ a b : Path, sameGroup G1 a b ↔ sameGroup G2 a b

/-- A filesystem on which every read fails. -/
def fsNone : FS := fun _ => none

/-- Three readable paths: `0` and `1` share contents, `2` differs; all
other paths are unreadable. -/
def fsW : FS := fun p =>
  if p = 0 then some [1] else if p = 1 then some [1] else if p = 2 then some [2] else none

/-- One readable path `0`; everything else is unreadable. -/
def fsW8 : FS := fun p => if p = 0 then some [3] else none

/-- Two paths with equal two-byte contents; the rest unreadable. -/
def fsC6 : FS := fun p => if p = 0 then some [1, 2] else if p = 1 then some [1, 2] else none

/-- A maximally colliding content hash. -/
def hashW : Contents → Nat := fun _ => 0

/-- A file larger than one page (4200 zero bytes). -/
def bigC : Contents := List.replicate 4200 0

/-- A nine-byte file: the smallest length on which the small-file
sampling loop of `get_fingerprint` collects more than 8 bytes. -/
def nineZeros : Contents := List.replicate 9 0

theorem keys_insertEntry {κ : Type} [DecidableEq κ] (k : κ) (v : Path)
    (m : List (κ × List Path)) :
    (insertEntry k v m).map Prod.fst =
      if k ∈ m.map Prod.fst then m.map Prod.fst else m.map Prod.fst ++ [k] := by
  induction m with
  | nil => simp [insertEntry]
  | cons e rest ih =>
    by_cases h : k = e.1
    · simp [insertEntry, h]
    · by_cases hmem : k ∈ rest.map Prod.fst <;>
        simp [insertEntry, h, ih, hmem]

theorem nodupKeys_insertEntry {κ : Type} [DecidableEq κ] {k : κ} {v : Path}
    {m : List (κ × List Path)} (h : (m.map Prod.fst).Nodup) :
    ((insertEntry k v m).map Prod.fst).Nodup := by
  rw [keys_insertEntry]
  split
  · exact h
  · next hk => simp [List.nodup_append, h, hk]

theorem wf_insertEntry {κ : Type} [DecidableEq κ] {f : Path → Option κ} {k : κ} {p : Path}
    {m : List (κ × List Path)} (hm : BucketsWF f m) (hp : f p = some k) :
    BucketsWF f (insertEntry k p m) := by
  obtain ⟨hnd, hmem⟩ := hm
  refine ⟨nodupKeys_insertEntry hnd, ?_⟩
  clear hnd
  induction m with
  | nil =>
    intro e he
    simp only [insertEntry, List.mem_singleton] at he
    subst he
    simpa using hp
  | cons e0 rest ih =>
    intro e he
    by_cases h : k = e0.1
    · simp only [insertEntry, if_pos h] at he
      rcases List.mem_cons.mp he with rfl | hrest
      · obtain ⟨hne, hkey⟩ := hmem e0 (List.mem_cons_self e0 rest)
        refine ⟨by simp, ?_⟩
        intro q hq
        rcases List.mem_append.mp hq with hq | hq
        · exact hkey q hq
        · rcases List.mem_singleton.mp hq with rfl
          simpa [h] using hp
      · exact hmem e (List.mem_cons_of_mem _ hrest)
    · simp only [insertEntry, if_neg h] at he
      rcases List.mem_cons.mp he with rfl | hrest
      · exact hmem e (List.mem_cons_self e rest)
      · exact ih (fun e2 he2 => hmem e2 (List.mem_cons_of_mem _ he2)) e hrest

theorem mem_bucketsJoin {κ : Type} {m : List (κ × List Path)} {q : Path} :
    q ∈ bucketsJoin m ↔ ∃ e ∈ m, q ∈ e.2 := by
  simp only [bucketsJoin, List.mem_flatten, List.mem_map]
  constructor
  · rintro ⟨l, ⟨e, he, rfl⟩, hq⟩
    exact ⟨e, he, hq⟩
  · rintro ⟨e, he, hq⟩
    exact ⟨e.2, ⟨e, he, rfl⟩, hq⟩

theorem join_insertEntry {κ : Type} [DecidableEq κ] (k : κ) (v : Path)
    (m : List (κ × List Path)) :
    (bucketsJoin (insertEntry k v m)).Perm (v :: bucketsJoin m) := by
  induction m with
  | nil => simp [insertEntry, bucketsJoin]
  | cons e rest ih =>
    by_cases h : k = e.1
    · simp only [insertEntry, if_pos h, bucketsJoin, List.map_cons, List.flatten_cons]
      rw [List.append_assoc]
      exact List.perm_middle
    · simp only [insertEntry, if_neg h, bucketsJoin, List.map_cons, List.flatten_cons]
      exact (List.Perm.append_left e.2 ih).trans List.perm_middle

theorem keyedFold_fst {κ : Type} [DecidableEq κ] (f : Path → Option κ)
    (m : List (κ × List Path)) (es : List PathIoError) (ps : List Path) :
    (keyedFold f (m, es) ps).1 = keyedGroup f m ps := by
  induction ps generalizing m es with
  | nil => rfl
  | cons p ps ih =>
    cases hf : f p with
    | some k => simp [keyedFold, keyedGroup, hf, ih]
    | none => simp [keyedFold, keyedGroup, hf, ih]

theorem keyedFold_snd {κ : Type} [DecidableEq κ] (f : Path → Option κ)
    (m : List (κ × List Path)) (es : List PathIoError) (ps : List Path) :
    (keyedFold f (m, es) ps).2 =
      es ++ (ps.filter (fun p => (f p).isNone)).map PathIoError.mk := by
  induction ps generalizing m es with
  | nil => simp [keyedFold]
  | cons p ps ih =>
    cases hf : f p with
    | some k => simp [keyedFold, hf, ih]
    | none => simp [keyedFold, hf, ih]

theorem wf_keyedGroup {κ : Type} [DecidableEq κ] {f : Path → Option κ} (ps : List Path)
    {m : List (κ × List Path)} (hm : BucketsWF f m) : BucketsWF f (keyedGroup f m ps) := by
  induction ps generalizing m with
  | nil => exact hm
  | cons p ps ih =>
    cases hf : f p with
    | some k => simpa [keyedGroup, hf] using ih (wf_insertEntry hm hf)
    | none => simpa [keyedGroup, hf] using ih hm

theorem wf_nil {κ : Type} (f : Path → Option κ) : BucketsWF f ([] : List (κ × List Path)) := by
  constructor <;> simp

theorem join_keyedGroup {κ : Type} [DecidableEq κ] (f : Path → Option κ) (ps : List Path)
    (m : List (κ × List Path)) :
    (bucketsJoin (keyedGroup f m ps)).Perm
      (bucketsJoin m ++ ps.filter (fun p => (f p).isSome)) := by
  induction ps generalizing m with
  | nil => simp [keyedGroup]
  | cons p ps ih =>
    cases hf : f p with
    | some k =>
      have step1 := ih (insertEntry k p m)
      have step2 := List.Perm.append_right (ps.filter (fun p => (f p).isSome))
        (join_insertEntry k p m)
      have step3 : (bucketsJoin (keyedGroup f m (p :: ps))).Perm
          ((p :: bucketsJoin m) ++ ps.filter (fun p => (f p).isSome)) := by
        simpa [keyedGroup, hf] using step1.trans step2
      simpa [hf] using step3.trans List.perm_middle.symm
    | none =>
      simpa [keyedGroup, hf] using ih m

theorem entry_eq_of_wf {κ : Type} {f : Path → Option κ} {m : List (κ × List Path)}
    (hm : BucketsWF f m) {e1 e2 : κ × List Path} (h1 : e1 ∈ m) (h2 : e2 ∈ m)
    (hk : e1.1 = e2.1) : e1 = e2 :=
  List.inj_on_of_nodup_map hm.1 h1 h2 hk

/-! ### Output properties -/

theorem equivGroups_of_wf {κ : Type} {f : Path → Option κ} {m : List (κ × List Path)}
    (hm : BucketsWF f m) : EquivGroups f (m.map Prod.snd) := by
  obtain ⟨hnd, hmem⟩ := hm
  constructor
  · intro g hg a ha b hb
    obtain ⟨e, he, rfl⟩ := List.mem_map.mp hg
    rw [(hmem e he).2 a ha, (hmem e he).2 b hb]
  · rw [List.pairwise_map]
    have hp : m.Pairwise (fun e1 e2 => e1.1 ≠ e2.1) := List.pairwise_map.mp hnd
    refine hp.imp_of_mem ?_
    intro e1 e2 h1 h2 hne a ha b hb
    rw [(hmem e1 h1).2 a ha, (hmem e2 h2).2 b hb]
    simp [hne]

theorem disjoint_of_equivGroups {κ : Type} {f : Path → Option κ} {G : List (List Path)}
    (h : EquivGroups f G) : G.Pairwise (fun g1 g2 => ∀ p ∈ g1, p ∉ g2) :=
  h.2.imp (fun hR p hp hq => hR p hp p hq rfl)

theorem sameGroup_buckets {κ : Type} {f : Path → Option κ} {m : List (κ × List Path)}
    (hm : BucketsWF f m) {a b : Path} :
    sameGroup (m.map Prod.snd) a b ↔
      a ∈ bucketsJoin m ∧ b ∈ bucketsJoin m ∧ ∃ k, f a = some k ∧ f b = some k := by
  constructor
  · rintro ⟨g, hg, ha, hb⟩
    obtain ⟨e, he, rfl⟩ := List.mem_map.mp hg
    exact ⟨mem_bucketsJoin.mpr ⟨e, he, ha⟩, mem_bucketsJoin.mpr ⟨e, he, hb⟩,
      e.1, (hm.2 e he).2 a ha, (hm.2 e he).2 b hb⟩
  · rintro ⟨hja, hjb, k, hfa, hfb⟩
    obtain ⟨ea, hea, ha⟩ := mem_bucketsJoin.mp hja
    obtain ⟨eb, heb, hb⟩ := mem_bucketsJoin.mp hjb
    have hka : ea.1 = k := by
      have h1 := (hm.2 ea hea).2 a ha
      rw [hfa] at h1
      exact (Option.some_inj.mp h1.symm)
    have hkb : eb.1 = k := by
      have h2 := (hm.2 eb heb).2 b hb
      rw [hfb] at h2
      exact (Option.some_inj.mp h2.symm)
    have heq : ea = eb := entry_eq_of_wf ⟨hm.1, hm.2⟩ hea heb (hka.trans hkb.symm)
    refine ⟨ea.2, List.mem_map_of_mem Prod.snd hea, ha, ?_⟩
    rw [heq]
    exact hb

/-! ### Fingerprint lemmas -/

theorem largeLoop_succ_of_le {bytes : Contents} {step k pos : Nat}
    (h : pos + 2 ≤ bytes.length) :
    largeLoop bytes step (k + 1) pos =
      match largeLoop bytes step k (pos + (2 + step)) with
      | some rest => some (bytes.getD pos 0 :: bytes.getD (pos + 1) 0 :: rest)
      | none => none := by
  simp only [largeLoop]
  rw [if_pos h]

theorem largeSample_eq {bytes : Contents} (h : 4096 < bytes.length) :
    largeSample bytes =
      some ((largeSamplePositions bytes.length).map (fun i => bytes.getD i 0)) := by
  have hq : 1024 ≤ bytes.length / 4 := by
    have h4 : (4097 : Nat) / 4 ≤ bytes.length / 4 := Nat.div_le_div_right h
    simpa using h4
  have hmod := Nat.div_add_mod bytes.length 4
  have hlt : bytes.length % 4 < 4 := Nat.mod_lt _ (by omega)
  have h0 : 0 + 2 ≤ bytes.length := by omega
  have h1 : 0 + (2 + bytes.length / 4) + 2 ≤ bytes.length := by omega
  have h2 : 0 + (2 + bytes.length / 4) + (2 + bytes.length / 4) + 2 ≤ bytes.length := by
    omega
  have h3 : 0 + (2 + bytes.length / 4) + (2 + bytes.length / 4) + (2 + bytes.length / 4) + 2 ≤
      bytes.length := by omega
  rw [largeSample, largeLoop_succ_of_le h0, largeLoop_succ_of_le h1, largeLoop_succ_of_le h2,
    largeLoop_succ_of_le h3]
  show some _ = _
  simp only [largeSamplePositions, List.map_cons, List.map_nil]
  ring_nf

theorem largeSample_isSome {bytes : Contents} (h : 4096 < bytes.length) :
    (largeSample bytes).isSome := by
  rw [largeSample_eq h]
  rfl

theorem fingerprintContents_isSome (bytes : Contents) :
    (fingerprintContents bytes).isSome := by
  unfold fingerprintContents
  split
  · rfl
  · split
    · rfl
    · next h1 h2 =>
      have h3 : 4096 < bytes.length := by omega
      simpa using largeSample_isSome h3

theorem get_fingerprint_isSome (fs : FS) (p : Path) :
    (get_fingerprint fs p).isSome = (fs p).isSome := by
  unfold get_fingerprint
  cases hfs : fs p with
  | none => rfl
  | some c => simpa using fingerprintContents_isSome c

theorem get_fingerprint_congr {fs : FS} {p q : Path} (h : fs p = fs q) :
    get_fingerprint fs p = get_fingerprint fs q := by
  unfold get_fingerprint
  rw [h]

/-! ### get_copies: branch lemmas -/

theorem copies_big_fst (fs : FS) (x y z : Path) (rest : List Path) :
    (get_copies fs (x :: y :: z :: rest)).1 =
      (keyedGroup fs [] (x :: y :: z :: rest)).map Prod.snd := by
  show (keyedFold fs ([], []) _).1.map Prod.snd = _
  rw [keyedFold_fst]

theorem copies_big_snd (fs : FS) (x y z : Path) (rest : List Path) :
    (get_copies fs (x :: y :: z :: rest)).2 =
      ((x :: y :: z :: rest).filter (fun p => (fs p).isNone)).map PathIoError.mk := by
  show (keyedFold fs ([], []) _).2 = _
  rw [keyedFold_snd]
  rfl

theorem equivGroups_nil {κ : Type} (f : Path → Option κ) : EquivGroups f [] := by
  simp [EquivGroups]

theorem equivGroups_single {κ : Type} (f : Path → Option κ) (a : Path) :
    EquivGroups f [[a]] := by
  simp [EquivGroups]

theorem equivGroups_pair_same {fs : FS} {a b : Path} {c : Contents}
    (ha : fs a = some c) (hb : fs b = some c) : EquivGroups fs [[a, b]] := by
  constructor
  · intro g hg x hx y hy
    simp only [List.mem_singleton] at hg
    subst hg
    have hval : ∀ z ∈ [a, b], fs z = some c := by
      intro z hz
      rcases List.mem_cons.mp hz with rfl | hz2
      · exact ha
      · rcases List.mem_singleton.mp hz2 with rfl
        exact hb
    rw [hval x hx, hval y hy]
  · simp

theorem equivGroups_pair_diff {fs : FS} {a b : Path} {ca cb : Contents}
    (ha : fs a = some ca) (hb : fs b = some cb) (hne : ca ≠ cb) :
    EquivGroups fs [[a], [b]] := by
  constructor
  · intro g hg x hx y hy
    rcases List.mem_cons.mp hg with rfl | hg2
    · rcases List.mem_singleton.mp hx with rfl
      rcases List.mem_singleton.mp hy with rfl
      rfl
    · rcases List.mem_singleton.mp hg2 with rfl
      rcases List.mem_singleton.mp hx with rfl
      rcases List.mem_singleton.mp hy with rfl
      rfl
  · refine List.Pairwise.cons ?_ (by simp)
    intro g hg
    rcases List.mem_singleton.mp hg with rfl
    intro x hx y hy
    rcases List.mem_singleton.mp hx with rfl
    rcases List.mem_singleton.mp hy with rfl
    rw [ha, hb]
    simp [hne]

theorem copies_equiv (fs : FS) (paths : List Path) :
    EquivGroups fs (get_copies fs paths).1 := by
  match paths with
  | [] => exact equivGroups_nil fs
  | [a] => exact equivGroups_single fs a
  | [a, b] =>
    rcases hfa : fs a with _ | ca <;> rcases hfb : fs b with _ | cb
    · simpa [get_copies, hfa, hfb] using equivGroups_nil fs
    · simpa [get_copies, hfa, hfb] using equivGroups_single fs b
    · simpa [get_copies, hfa, hfb] using equivGroups_single fs a
    · by_cases hc : ca = cb
      · subst hc
        simpa [get_copies, hfa, hfb] using equivGroups_pair_same hfa hfb
      · simpa [get_copies, hfa, hfb, hc] using equivGroups_pair_diff hfa hfb hc
  | x :: y :: z :: rest =>
    rw [copies_big_fst]
    exact equivGroups_of_wf (wf_keyedGroup _ (wf_nil fs))

theorem copies_join_perm {fs : FS} {paths : List Path} (h : paths.length ≠ 1) :
    ((get_copies fs paths).1.flatten).Perm (paths.filter (fun p => (fs p).isSome)) := by
  match paths with
  | [] => simp [get_copies, keyedFold]
  | [a] => simp at h
  | [a, b] =>
    rcases hfa : fs a with _ | ca <;> rcases hfb : fs b with _ | cb
    · simp [get_copies, hfa, hfb]
    · simp [get_copies, hfa, hfb]
    · simp [get_copies, hfa, hfb]
    · by_cases hc : ca = cb <;> simp [get_copies, hfa, hfb, hc]
  | x :: y :: z :: rest =>
    rw [copies_big_fst]
    simpa [bucketsJoin] using join_keyedGroup fs (x :: y :: z :: rest) []

theorem copies_errors {fs : FS} {paths : List Path} (h : paths.length ≠ 1) :
    (get_copies fs paths).2 =
      (paths.filter (fun p => (fs p).isNone)).map PathIoError.mk := by
  match paths with
  | [] => simp [get_copies, keyedFold]
  | [a] => simp at h
  | [a, b] =>
    rcases hfa : fs a with _ | ca <;> rcases hfb : fs b with _ | cb
    · simp [get_copies, hfa, hfb]
    · simp [get_copies, hfa, hfb]
    · simp [get_copies, hfa, hfb]
    · by_cases hc : ca = cb <;> simp [get_copies, hfa, hfb, hc]
  | x :: y :: z :: rest => exact copies_big_snd fs x y z rest

theorem copies_join_subset {fs : FS} {paths : List Path} {q : Path}
    (hq : q ∈ (get_copies fs paths).1.flatten) : q ∈ paths := by
  match paths with
  | [] => simp [get_copies, keyedFold] at hq
  | [a] =>
    simp only [get_copies, List.flatten_cons, List.flatten_nil, List.append_nil] at hq
    simpa using hq
  | [a, b] =>
    have h2 : ([a, b] : List Path).length ≠ 1 := by simp
    have := (copies_join_perm h2).mem_iff.mp hq
    exact List.mem_of_mem_filter this
  | x :: y :: z :: rest =>
    have h2 : (x :: y :: z :: rest).length ≠ 1 := by simp
    have := (copies_join_perm h2).mem_iff.mp hq
    exact List.mem_of_mem_filter this

theorem copies_join_perm_readable {fs : FS} {paths : List Path}
    (h : ∀ p ∈ paths, (fs p).isSome) :
    ((get_copies fs paths).1.flatten).Perm paths := by
  by_cases hlen : paths.length = 1
  · obtain ⟨a, rfl⟩ := List.length_eq_one.mp hlen
    simp [get_copies]
  · have hp := @copies_join_perm fs paths hlen
    rwa [List.filter_eq_self.mpr (fun p hp => h p hp)] at hp

theorem copies_errors_readable {fs : FS} {paths : List Path}
    (h : ∀ p ∈ paths, (fs p).isSome) : (get_copies fs paths).2 = [] := by
  by_cases hlen : paths.length = 1
  · obtain ⟨a, rfl⟩ := List.length_eq_one.mp hlen
    rfl
  · rw [copies_errors hlen]
    have hnil : paths.filter (fun p => (fs p).isNone) = [] := by
      rw [List.filter_eq_nil_iff]
      intro p hp
      simp [Option.isNone_iff_eq_none]
      intro hcon
      have := h p hp
      rw [hcon] at this
      simp at this
    rw [hnil]
    rfl

theorem copies_sameGroup_one (fs : FS) (p a b : Path) :
    sameGroup (get_copies fs [p]).1 a b ↔ a = p ∧ b = p := by
  simp [get_copies, sameGroup]

theorem copies_sameGroup {fs : FS} {paths : List Path} (h : paths.length ≠ 1)
    (a b : Path) :
    sameGroup (get_copies fs paths).1 a b ↔ CoGrouped fs paths a b := by
  match paths with
  | [] => simp [get_copies, keyedFold, sameGroup, CoGrouped]
  | [p] => simp at h
  | [x, y] =>
    rcases hfx : fs x with _ | cx <;> rcases hfy : fs y with _ | cy
    · have hgc : (get_copies fs [x, y]).1 = [] := by
        simp [get_copies, hfx, hfy]
      rw [hgc]
      simp only [sameGroup, CoGrouped]
      constructor
      · rintro ⟨g, hg, -, -⟩
        simp at hg
      · rintro ⟨ha, hb, c, hca, hcb⟩
        rcases List.mem_cons.mp ha with h1 | h1
        · rw [h1, hfx] at hca
          simp at hca
        · rw [List.mem_singleton.mp h1, hfy] at hca
          simp at hca
    · have hgc : (get_copies fs [x, y]).1 = [[y]] := by
        simp [get_copies, hfx, hfy]
      rw [hgc]
      simp only [sameGroup, CoGrouped]
      constructor
      · rintro ⟨g, hg, ha, hb⟩
        have hg2 := List.mem_singleton.mp hg
        subst hg2
        have ha2 := List.mem_singleton.mp ha
        have hb2 := List.mem_singleton.mp hb
        exact ⟨by simp [ha2], by simp [hb2], cy, by rw [ha2, hfy], by rw [hb2, hfy]⟩
      · rintro ⟨ha, hb, c, hca, hcb⟩
        have ha2 : a = y := by
          rcases List.mem_cons.mp ha with h1 | h1
          · rw [h1, hfx] at hca
            simp at hca
          · exact List.mem_singleton.mp h1
        have hb2 : b = y := by
          rcases List.mem_cons.mp hb with h1 | h1
          · rw [h1, hfx] at hcb
            simp at hcb
          · exact List.mem_singleton.mp h1
        exact ⟨[y], by simp, by simp [ha2], by simp [hb2]⟩
    · have hgc : (get_copies fs [x, y]).1 = [[x]] := by
        simp [get_copies, hfx, hfy]
      rw [hgc]
      simp only [sameGroup, CoGrouped]
      constructor
      · rintro ⟨g, hg, ha, hb⟩
        have hg2 := List.mem_singleton.mp hg
        subst hg2
        have ha2 := List.mem_singleton.mp ha
        have hb2 := List.mem_singleton.mp hb
        exact ⟨by simp [ha2], by simp [hb2], cx, by rw [ha2, hfx], by rw [hb2, hfx]⟩
      · rintro ⟨ha, hb, c, hca, hcb⟩
        have ha2 : a = x := by
          rcases List.mem_cons.mp ha with h1 | h1
          · exact h1
          · rw [List.mem_singleton.mp h1, hfy] at hca
            simp at hca
        have hb2 : b = x := by
          rcases List.mem_cons.mp hb with h1 | h1
          · exact h1
          · rw [List.mem_singleton.mp h1, hfy] at hcb
            simp at hcb
        exact ⟨[x], by simp, by simp [ha2], by simp [hb2]⟩
    · by_cases hc : cx = cy
      · subst hc
        have hgc : (get_copies fs [x, y]).1 = [[x, y]] := by
          simp [get_copies, hfx, hfy]
        rw [hgc]
        simp only [sameGroup, CoGrouped]
        have hval : ∀ z ∈ [x, y], fs z = some cx := by
          intro z hz
          rcases List.mem_cons.mp hz with h1 | h1
          · rw [h1, hfx]
          · rw [List.mem_singleton.mp h1, hfy]
        constructor
        · rintro ⟨g, hg, ha, hb⟩
          have hg2 := List.mem_singleton.mp hg
          subst hg2
          exact ⟨ha, hb, cx, hval a ha, hval b hb⟩
        · rintro ⟨ha, hb, c, hca, hcb⟩
          exact ⟨[x, y], by simp, ha, hb⟩
      · have hgc : (get_copies fs [x, y]).1 = [[x], [y]] := by
          simp [get_copies, hfx, hfy, hc]
        rw [hgc]
        simp only [sameGroup, CoGrouped]
        constructor
        · rintro ⟨g, hg, ha, hb⟩
          rcases List.mem_cons.mp hg with h1 | h1
          · subst h1
            have ha2 := List.mem_singleton.mp ha
            have hb2 := List.mem_singleton.mp hb
            exact ⟨by simp [ha2], by simp [hb2], cx, by rw [ha2, hfx], by rw [hb2, hfx]⟩
          · have hg2 := List.mem_singleton.mp h1
            subst hg2
            have ha2 := List.mem_singleton.mp ha
            have hb2 := List.mem_singleton.mp hb
            exact ⟨by simp [ha2], by simp [hb2], cy, by rw [ha2, hfy], by rw [hb2, hfy]⟩
        · rintro ⟨ha, hb, c, hca, hcb⟩
          rcases List.mem_cons.mp ha with h1 | h1
          · rcases List.mem_cons.mp hb with h2 | h2
            · exact ⟨[x], by simp, by simp [h1], by simp [h2]⟩
            · rw [h1, hfx] at hca
              rw [List.mem_singleton.mp h2, hfy] at hcb
              have e1 := Option.some_inj.mp hca
              have e2 := Option.some_inj.mp hcb
              exact absurd (e1.trans e2.symm) hc
          · rcases List.mem_cons.mp hb with h2 | h2
            · rw [List.mem_singleton.mp h1, hfy] at hca
              rw [h2, hfx] at hcb
              have e1 := Option.some_inj.mp hca
              have e2 := Option.some_inj.mp hcb
              exact absurd (e2.trans e1.symm) hc
            · exact ⟨[y], by simp, by simp [List.mem_singleton.mp h1],
                by simp [List.mem_singleton.mp h2]⟩
  | x :: y :: z :: rest =>
    rw [show (get_copies fs (x :: y :: z :: rest)).1 =
        (keyedGroup fs [] (x :: y :: z :: rest)).map Prod.snd from copies_big_fst fs x y z rest]
    rw [sameGroup_buckets (wf_keyedGroup _ (wf_nil fs))]
    have hmem : ∀ q : Path, q ∈ bucketsJoin (keyedGroup fs [] (x :: y :: z :: rest)) ↔
        q ∈ (x :: y :: z :: rest) ∧ (fs q).isSome := by
      intro q
      rw [(join_keyedGroup fs (x :: y :: z :: rest) []).mem_iff]
      simp [List.mem_filter, bucketsJoin]
    constructor
    · rintro ⟨ha, hb, k, hka, hkb⟩
      exact ⟨((hmem a).mp ha).1, ((hmem b).mp hb).1, k, hka, hkb⟩
    · rintro ⟨ha, hb, k, hka, hkb⟩
      exact ⟨(hmem a).mpr ⟨ha, by simp [hka]⟩, (hmem b).mpr ⟨hb, by simp [hkb]⟩, k, hka, hkb⟩

/-! ### get_copies_hashed: decomposition -/

theorem foldl_pair_append {α β γ : Type} (F : α → List β) (G : α → List γ) :
    ∀ (bs : List α) (acc : List β × List γ),
      bs.foldl (fun acc g => (acc.1 ++ F g, acc.2 ++ G g)) acc =
        (acc.1 ++ (bs.map F).flatten, acc.2 ++ (bs.map G).flatten) := by
  intro bs
  induction bs with
  | nil => intro acc; simp
  | cons b rest ih =>
    intro acc
    rw [List.foldl_cons, ih]
    simp [List.append_assoc]

theorem hashed_fst (fs : FS) (paths : List Path) :
    (get_copies_hashed fs paths).1 =
      ((hashedBuckets fs paths).map (fun bk => (get_copies fs bk).1)).flatten := by
  show (((keyedFold (get_fingerprint fs) ([], []) paths).1.map Prod.snd).foldl
      (fun acc g => (acc.1 ++ (get_copies fs g).1, acc.2 ++ (get_copies fs g).2))
      ([], (keyedFold (get_fingerprint fs) ([], []) paths).2)).1 = _
  rw [foldl_pair_append (fun bk => (get_copies fs bk).1) (fun bk => (get_copies fs bk).2)]
  rw [keyedFold_fst]
  rfl

theorem hashed_snd (fs : FS) (paths : List Path) :
    (get_copies_hashed fs paths).2 =
      (paths.filter (fun p => (get_fingerprint fs p).isNone)).map PathIoError.mk ++
        ((hashedBuckets fs paths).map (fun bk => (get_copies fs bk).2)).flatten := by
  show (((keyedFold (get_fingerprint fs) ([], []) paths).1.map Prod.snd).foldl
      (fun acc g => (acc.1 ++ (get_copies fs g).1, acc.2 ++ (get_copies fs g).2))
      ([], (keyedFold (get_fingerprint fs) ([], []) paths).2)).2 = _
  rw [foldl_pair_append (fun bk => (get_copies fs bk).1) (fun bk => (get_copies fs bk).2)]
  rw [keyedFold_fst, keyedFold_snd]
  rfl

theorem hashedBuckets_readable {fs : FS} {paths : List Path} {bk : List Path}
    (hbk : bk ∈ hashedBuckets fs paths) : ∀ p ∈ bk, (fs p).isSome := by
  intro p hp
  obtain ⟨e, he, hsnd⟩ := List.mem_map.mp hbk
  have hwf := wf_keyedGroup paths (wf_nil (get_fingerprint fs))
  have hkey := (hwf.2 e he).2 p (hsnd ▸ hp)
  have hfp : (get_fingerprint fs p).isSome = true := by simp [hkey]
  rwa [get_fingerprint_isSome] at hfp

theorem hashedBuckets_subset {fs : FS} {paths : List Path} {bk : List Path}
    (hbk : bk ∈ hashedBuckets fs paths) : ∀ p ∈ bk, p ∈ paths := by
  intro p hp
  obtain ⟨e, he, hsnd⟩ := List.mem_map.mp hbk
  have hj : p ∈ bucketsJoin (keyedGroup (get_fingerprint fs) [] paths) :=
    mem_bucketsJoin.mpr ⟨e, he, hsnd ▸ hp⟩
  have := (join_keyedGroup (get_fingerprint fs) paths []).mem_iff.mp hj
  simp only [bucketsJoin, List.map_nil, List.flatten_nil, List.nil_append] at this
  exact List.mem_of_mem_filter this

theorem get_fingerprint_isNone (fs : FS) (p : Path) :
    (get_fingerprint fs p).isNone = (fs p).isNone := by
  unfold get_fingerprint
  cases hfs : fs p with
  | none => rfl
  | some c =>
    have hs := fingerprintContents_isSome c
    cases hfc : fingerprintContents c with
    | none => rw [hfc] at hs; cases hs
    | some v => simp [hfc]


theorem hashed_equiv (fs : FS) (paths : List Path) :
    EquivGroups fs (get_copies_hashed fs paths).1 := by
  rw [hashed_fst]
  constructor
  · intro g hg a ha b hb
    obtain ⟨Gs, hGs, hgin⟩ := List.mem_flatten.mp hg
    obtain ⟨bk, hbk, rfl⟩ := List.mem_map.mp hGs
    exact (copies_equiv fs bk).1 g hgin a ha b hb
  · rw [List.pairwise_flatten]
    refine ⟨?_, ?_⟩
    · intro Gs hGs
      obtain ⟨bk, hbk, rfl⟩ := List.mem_map.mp hGs
      exact (copies_equiv fs bk).2
    · rw [List.pairwise_map]
      have hwf := wf_keyedGroup paths (wf_nil (get_fingerprint fs))
      have hfp := (equivGroups_of_wf hwf).2
      refine hfp.imp ?_
      intro bk1 bk2 hR g1 hg1 g2 hg2 a ha b hb
      have ha2 : a ∈ bk1 := copies_join_subset (List.mem_flatten.mpr ⟨g1, hg1, ha⟩)
      have hb2 : b ∈ bk2 := copies_join_subset (List.mem_flatten.mpr ⟨g2, hg2, hb⟩)
      intro hcontents
      exact hR a ha2 b hb2 (get_fingerprint_congr hcontents)

theorem hashed_join_perm (fs : FS) (paths : List Path) :
    ((get_copies_hashed fs paths).1.flatten).Perm
      (paths.filter (fun p => (fs p).isSome)) := by
  rw [hashed_fst]
  have h1 : ∀ bs : List (List Path), (∀ bk ∈ bs, ∀ p ∈ bk, (fs p).isSome) →
      (((bs.map (fun bk => (get_copies fs bk).1)).flatten).flatten).Perm bs.flatten := by
    intro bs
    induction bs with
    | nil => intro _; simp
    | cons b rest ih =>
      intro hr
      simp only [List.map_cons, List.flatten_cons, List.flatten_append]
      exact (copies_join_perm_readable (hr b (by simp))).append
        (ih (fun bk hbk p hp => hr bk (by simp [hbk]) p hp))
  have h2 := h1 (hashedBuckets fs paths) (fun bk hbk => hashedBuckets_readable hbk)
  refine h2.trans ?_
  have h3 : (hashedBuckets fs paths).flatten =
      bucketsJoin (keyedGroup (get_fingerprint fs) [] paths) := rfl
  rw [h3]
  have hj := join_keyedGroup (get_fingerprint fs) paths []
  simp only [bucketsJoin, List.map_nil, List.flatten_nil, List.nil_append] at hj
  refine hj.trans ?_
  rw [List.filter_congr (fun p hp => ?_)]
  rw [get_fingerprint_isSome]

theorem copies_hashed_errors (fs : FS) (paths : List Path) :
    (get_copies_hashed fs paths).2 =
      (paths.filter (fun p => (fs p).isNone)).map PathIoError.mk := by
  rw [hashed_snd]
  have h2 : ((hashedBuckets fs paths).map (fun bk => (get_copies fs bk).2)).flatten = [] := by
    rw [List.flatten_eq_nil_iff]
    intro es hes
    obtain ⟨bk, hbk, rfl⟩ := List.mem_map.mp hes
    exact copies_errors_readable (hashedBuckets_readable hbk)
  rw [h2, List.append_nil]
  congr 1
  apply List.filter_congr
  intro p hp
  rw [get_fingerprint_isNone]

theorem sameGroup_flatten {Gs : List (List (List Path))} {a b : Path} :
    sameGroup Gs.flatten a b ↔ ∃ G ∈ Gs, sameGroup G a b := by
  simp only [sameGroup, List.mem_flatten]
  constructor
  · rintro ⟨g, ⟨G, hG, hgG⟩, ha, hb⟩
    exact ⟨G, hG, g, hgG, ha, hb⟩
  · rintro ⟨G, hG, g, hgG, ha, hb⟩
    exact ⟨g, ⟨G, hG, hgG⟩, ha, hb⟩

theorem hashed_sameGroup (fs : FS) (paths : List Path) (a b : Path) :
    sameGroup (get_copies_hashed fs paths).1 a b ↔ CoGrouped fs paths a b := by
  rw [hashed_fst, sameGroup_flatten]
  constructor
  · rintro ⟨G, hG, hsgG⟩
    obtain ⟨bk, hbk, rfl⟩ := List.mem_map.mp hG
    have hread := hashedBuckets_readable hbk
    have hsub := hashedBuckets_subset hbk
    by_cases hbl : bk.length = 1
    · obtain ⟨p, rfl⟩ := List.length_eq_one.mp hbl
      rw [copies_sameGroup_one] at hsgG
      obtain ⟨ha2, hb2⟩ := hsgG
      have hps : (fs p).isSome := hread p (by simp)
      obtain ⟨c, hc⟩ := Option.isSome_iff_exists.mp hps
      exact ⟨by simp [ha2, hsub p (by simp)], by simp [hb2, hsub p (by simp)],
        c, by rw [ha2, hc], by rw [hb2, hc]⟩
    · rw [copies_sameGroup hbl] at hsgG
      obtain ⟨ha2, hb2, c, hca, hcb⟩ := hsgG
      exact ⟨hsub a ha2, hsub b hb2, c, hca, hcb⟩
  · rintro ⟨ha, hb, c, hca, hcb⟩
    have hfpab : get_fingerprint fs a = get_fingerprint fs b :=
      get_fingerprint_congr (hca.trans hcb.symm)
    have hsa : (get_fingerprint fs a).isSome := by
      rw [get_fingerprint_isSome]
      simp [hca]
    obtain ⟨k, hk⟩ := Option.isSome_iff_exists.mp hsa
    have hwf := wf_keyedGroup paths (wf_nil (get_fingerprint fs))
    have hj := join_keyedGroup (get_fingerprint fs) paths []
    simp only [bucketsJoin, List.map_nil, List.flatten_nil, List.nil_append] at hj
    have hja : a ∈ bucketsJoin (keyedGroup (get_fingerprint fs) [] paths) := by
      show a ∈ (List.map Prod.snd (keyedGroup (get_fingerprint fs) [] paths)).flatten
      rw [hj.mem_iff, List.mem_filter]
      exact ⟨ha, by simp [hsa]⟩
    have hjb : b ∈ bucketsJoin (keyedGroup (get_fingerprint fs) [] paths) := by
      show b ∈ (List.map Prod.snd (keyedGroup (get_fingerprint fs) [] paths)).flatten
      rw [hj.mem_iff, List.mem_filter]
      refine ⟨hb, ?_⟩
      rw [← hfpab]
      simp [hsa]
    have hsg := (sameGroup_buckets hwf).mpr ⟨hja, hjb, k, hk, by rw [← hfpab]; exact hk⟩
    obtain ⟨bk, hbk, hax, hbx⟩ := hsg
    refine ⟨(get_copies fs bk).1, List.mem_map_of_mem _ hbk, ?_⟩
    by_cases hbl : bk.length = 1
    · obtain ⟨p, rfl⟩ := List.length_eq_one.mp hbl
      rw [copies_sameGroup_one]
      exact ⟨List.mem_singleton.mp hax, List.mem_singleton.mp hbx⟩
    · rw [copies_sameGroup hbl]
      exact ⟨hax, hbx, c, hca, hcb⟩


/-! ### Partition and error-surfacing properties -/

theorem copies_errProp {fs : FS} {paths : List Path} (h : paths.length ≠ 1) :
    ErrProp fs paths (get_copies fs paths) := by
  refine ⟨copies_errors h, ?_, ?_⟩
  · intro g hg p hp
    have h1 : p ∈ (get_copies fs paths).1.flatten := List.mem_flatten.mpr ⟨g, hg, hp⟩
    have h2 := (copies_join_perm h).mem_iff.mp h1
    exact (List.mem_filter.mp h2).2
  · intro q hq hqs
    have h1 : q ∈ paths.filter (fun p => (fs p).isSome) := List.mem_filter.mpr ⟨hq, hqs⟩
    have h2 := (copies_join_perm h).mem_iff.mpr h1
    exact List.mem_flatten.mp h2

theorem hashed_errProp (fs : FS) (paths : List Path) :
    ErrProp fs paths (get_copies_hashed fs paths) := by
  refine ⟨copies_hashed_errors fs paths, ?_, ?_⟩
  · intro g hg p hp
    have h1 : p ∈ (get_copies_hashed fs paths).1.flatten := List.mem_flatten.mpr ⟨g, hg, hp⟩
    have h2 := (hashed_join_perm fs paths).mem_iff.mp h1
    exact (List.mem_filter.mp h2).2
  · intro q hq hqs
    have h1 : q ∈ paths.filter (fun p => (fs p).isSome) := List.mem_filter.mpr ⟨hq, hqs⟩
    have h2 := (hashed_join_perm fs paths).mem_iff.mpr h1
    exact List.mem_flatten.mp h2

/-! ### get_duplicates lemmas -/

theorem duplicates_eq_copies_filter (fs : FS) (paths : List Path) :
    get_duplicates fs paths =
      (get_copies fs paths).1.filter (fun g => decide (1 < g.length)) := by
  match paths with
  | [] => rfl
  | [a] =>
    cases hfa : fs a with
    | none => simp [get_duplicates, get_copies, keyedGroup, hfa]
    | some c => simp [get_duplicates, get_copies, keyedGroup, hfa, insertEntry]
  | [a, b] =>
    rcases hfa : fs a with _ | ca <;> rcases hfb : fs b with _ | cb
    · simp [get_duplicates, get_copies, keyedGroup, hfa, hfb]
    · simp [get_duplicates, get_copies, keyedGroup, hfa, hfb, insertEntry]
    · simp [get_duplicates, get_copies, keyedGroup, hfa, hfb, insertEntry]
    · by_cases hc : ca = cb
      · subst hc
        simp [get_duplicates, get_copies, keyedGroup, hfa, hfb, insertEntry]
      · have hc2 : ¬ cb = ca := fun hcon => hc hcon.symm
        simp [get_duplicates, get_copies, keyedGroup, hfa, hfb, insertEntry, hc, hc2]
  | x :: y :: z :: rest =>
    rw [copies_big_fst]
    rfl

theorem duplicates_min_len (fs : FS) (paths : List Path) :
    ∀ g ∈ get_duplicates fs paths, 2 ≤ g.length := by
  intro g hg
  have h1 := List.of_mem_filter hg
  simp only [decide_eq_true_eq] at h1
  omega

theorem duplicates_hashed_min_len (hash : Contents → Nat) (fs : FS) (paths : List Path) :
    ∀ g ∈ get_duplicates_hashed hash fs paths, 2 ≤ g.length := by
  intro g hg
  unfold get_duplicates_hashed at hg
  obtain ⟨L, hL, hgL⟩ := List.mem_flatten.mp hg
  obtain ⟨bk, hbk, rfl⟩ := List.mem_map.mp hL
  exact duplicates_min_len fs bk g hgL

/-! ### Fingerprint: large-file equation -/

theorem fingerprint_large {bytes : Contents} (h : 4096 < bytes.length) :
    fingerprintContents bytes =
      some (packKey ((largeSamplePositions bytes.length).map (fun i => bytes.getD i 0)),
        bytes.length) := by
  unfold fingerprintContents
  rw [if_neg (by omega), if_neg (by omega), largeSample_eq h]
  rfl


/-! ### Concrete filesystems used by witnesses and counterexamples -/

/-! ### Claims -/

/-- Claim C1 (equivalence property): for every filesystem and input path
list, any two paths in the same output group of `get_copies` or of
`get_copies_hashed` have identical contents (`fs a = fs b`), and any two
paths in different output groups have differing contents
(`fs a ≠ fs b`). -/
theorem claim_C1_equivalence (fs : FS) (paths : List Path) :
    EquivGroups fs (get_copies fs paths).1 ∧
    EquivGroups fs (get_copies_hashed fs paths).1 :=
  ⟨copies_equiv fs paths, hashed_equiv fs paths⟩

/-- Witness for C1 at a concrete filesystem and path list. -/
theorem claim_C1_witness : EquivGroups fsW (get_copies fsW [0, 1, 2]).1 :=
  (claim_C1_equivalence fsW [0, 1, 2]).1

/-- Claim C2, counterexample: on the one-element input `[0]` with `0`
unreadable, `get_copies` returns the group `[[0]]` although `0` was
never successfully read, so the union of the groups is not the set of
successfully read paths. -/
theorem claim_C2_counterexample :
    ¬ PartitionProp fsNone [0] (get_copies fsNone [0]).1 := by
  rintro ⟨hperm, -⟩
  have h1 := hperm.length_eq
  simp [get_copies, fsNone] at h1

/-- Claim C2, amended (partition property): `get_copies_hashed` always
partitions exactly the successfully-read input paths with no path in two
groups; `get_copies` does so for every input except the single-path
input, which is returned as a singleton group without being read. -/
theorem claim_C2_partition (fs : FS) (paths : List Path) :
    PartitionProp fs paths (get_copies_hashed fs paths).1 ∧
    (paths.length ≠ 1 → PartitionProp fs paths (get_copies fs paths).1) :=
  ⟨⟨hashed_join_perm fs paths, disjoint_of_equivGroups (hashed_equiv fs paths)⟩,
   fun h => ⟨copies_join_perm h, disjoint_of_equivGroups (copies_equiv fs paths)⟩⟩

/-- Witness for C2 at a concrete two-element input. -/
theorem claim_C2_witness :
    (([0, 1] : List Path).length ≠ 1) ∧ PartitionProp fsW [0, 1] (get_copies fsW [0, 1]).1 :=
  ⟨by decide, (claim_C2_partition fsW [0, 1]).2 (by decide)⟩

/-- Claim C3, counterexample: on the one-element input `[0]` with `0`
unreadable, `get_copies` returns one group `[[0]]` while
`get_copies_hashed` returns no groups, so the two variants do not
produce the same partition. -/
theorem claim_C3_counterexample :
    ¬ samePartition (get_copies fsNone [0]).1 (get_copies_hashed fsNone [0]).1 := by
  rintro ⟨hperm, -⟩
  have h1 := hperm.length_eq
  have h2 : (get_copies_hashed fsNone [0]).1 = [] := rfl
  rw [h2] at h1
  simp [get_copies] at h1

/-- Claim C3, amended (consistency between variants): `get_copies` and
`get_copies_hashed` produce the same partition of the input paths into
groups on every input, except a single-path input whose path is
unreadable (there `get_copies` keeps the unread path as a singleton
group and `get_copies_hashed` drops it). -/
theorem claim_C3_consistency (fs : FS) (paths : List Path)
    (h : paths.length ≠ 1 ∨ ∀ p ∈ paths, (fs p).isSome) :
    samePartition (get_copies fs paths).1 (get_copies_hashed fs paths).1 := by
  constructor
  · rcases h with h | h
    · exact (copies_join_perm h).trans (hashed_join_perm fs paths).symm
    · have h1 := copies_join_perm_readable h
      have h2 := hashed_join_perm fs paths
      rw [List.filter_eq_self.mpr (fun p hp => h p hp)] at h2
      exact h1.trans h2.symm
  · intro a b
    by_cases hlen : paths.length = 1
    · obtain ⟨p, rfl⟩ := List.length_eq_one.mp hlen
      have hps : (fs p).isSome := by
        rcases h with h | h
        · simp at h
        · exact h p (by simp)
      obtain ⟨c, hc⟩ := Option.isSome_iff_exists.mp hps
      rw [copies_sameGroup_one, hashed_sameGroup]
      constructor
      · rintro ⟨ha, hb⟩
        exact ⟨by simp [ha], by simp [hb], c, by rw [ha]; exact hc, by rw [hb]; exact hc⟩
      · rintro ⟨ha, hb, -⟩
        exact ⟨List.mem_singleton.mp ha, List.mem_singleton.mp hb⟩
    · rw [copies_sameGroup hlen, hashed_sameGroup]

/-- Witness for C3 at a concrete three-element input. -/
theorem claim_C3_witness :
    samePartition (get_copies fsW [0, 1, 2]).1 (get_copies_hashed fsW [0, 1, 2]).1 :=
  claim_C3_consistency fsW [0, 1, 2] (Or.inl (by decide))

/-- Claim C4 (code bug evidence): on a readable file of nine bytes the
small-file branch of `get_fingerprint` uses stride `max (9 / 8) 1 = 1`
and so samples all nine bytes, exceeding the eight sampled bytes the
spec allows. -/
theorem claim_C4_oversample :
    sampleIndices nineZeros.length = [0, 1, 2, 3, 4, 5, 6, 7, 8] ∧
    (smallSample nineZeros).length = 9 ∧
    ¬ (smallSample nineZeros).length ≤ 8 := by
  refine ⟨by decide, by decide, by decide⟩

/-- Claim C5 (code bug evidence): on a nine-byte file the key-packing
loop of `get_fingerprint` runs for 9 sampled bytes, so its last shift
amount `8 * 8 = 64` equals the bit width of `usize` instead of being
strictly below it (an arithmetic shift-overflow panic in debug builds).
-/
theorem claim_C5_shift_overflow :
    usizeBits ∈ keyShifts (smallSample nineZeros) ∧
    ¬ (∀ s ∈ keyShifts (smallSample nineZeros), s < usizeBits) := by
  refine ⟨by decide, by decide⟩

/-- Claim C6 (fingerprint soundness): two paths with identical contents
always receive identical `(fingerprint, length)` results from
`get_fingerprint`; contrapositively, different fingerprints imply
different contents. -/
theorem claim_C6_soundness (fs : FS) :
    (∀ p q : Path, fs p = fs q → get_fingerprint fs p = get_fingerprint fs q) ∧
    (∀ p q : Path, get_fingerprint fs p ≠ get_fingerprint fs q → fs p ≠ fs q) :=
  ⟨fun _ _ h => get_fingerprint_congr h,
   fun _ _ h hc => h (get_fingerprint_congr hc)⟩

/-- Witness for C6 at two concrete paths with equal contents. -/
theorem claim_C6_witness :
    fsC6 0 = fsC6 1 ∧ get_fingerprint fsC6 0 = get_fingerprint fsC6 1 :=
  ⟨rfl, (claim_C6_soundness fsC6).1 0 1 rfl⟩

/-- Claim C7 (duplicates versus copies): `get_duplicates` returns
exactly the groups of `get_copies` that have more than one member, and
both `get_duplicates` and `get_duplicates_hashed` return only groups of
size at least two. -/
theorem claim_C7_duplicates (hash : Contents → Nat) (fs : FS) (paths : List Path) :
    get_duplicates fs paths =
      (get_copies fs paths).1.filter (fun g => decide (1 < g.length)) ∧
    (∀ g ∈ get_duplicates fs paths, 2 ≤ g.length) ∧
    (∀ g ∈ get_duplicates_hashed hash fs paths, 2 ≤ g.length) :=
  ⟨duplicates_eq_copies_filter fs paths, duplicates_min_len fs paths,
   duplicates_hashed_min_len hash fs paths⟩

/-- Witness for C7: a hash collision between different contents is still
resolved, and the surviving duplicate group has two members. -/
theorem claim_C7_witness :
    [0, 1] ∈ get_duplicates_hashed hashW fsW [0, 1, 2] ∧ 2 ≤ ([0, 1] : List Path).length :=
  ⟨by decide, (claim_C7_duplicates hashW fsW [0, 1, 2]).2.2 [0, 1] (by decide)⟩

/-- Claim C8, counterexample: on the one-element input `[0]` with `0`
unreadable, `get_copies` reports no error and keeps `0` in a group, so
the unreadable file is neither recorded nor excluded. -/
theorem claim_C8_counterexample : ¬ ErrProp fsNone [0] (get_copies fsNone [0]) := by
  rintro ⟨-, hex, -⟩
  have h1 := hex [0] (by simp [get_copies]) 0 (by simp)
  simp [fsNone] at h1

/-- Claim C8, amended (error tolerance and surfacing): for
`get_copies_hashed` on every input, and for `get_copies` on every input
of length other than one, an unreadable file does not abort the run: the
error list is exactly one `PathIoError` carrying the path of each
unreadable input (never dropped), unreadable paths appear in no group,
and every readable path still appears in a group.  A single-path input
is returned by `get_copies` unread, so an unreadable single file
produces no error there. -/
theorem claim_C8_errors (fs : FS) (paths : List Path) :
    ErrProp fs paths (get_copies_hashed fs paths) ∧
    (paths.length ≠ 1 → ErrProp fs paths (get_copies fs paths)) :=
  ⟨hashed_errProp fs paths, fun h => copies_errProp h⟩

/-- Witness for C8 at a concrete input with one unreadable path. -/
theorem claim_C8_witness :
    (([0, 1] : List Path).length ≠ 1) ∧ ErrProp fsW8 [0, 1] (get_copies fsW8 [0, 1]) :=
  ⟨by decide, (claim_C8_errors fsW8 [0, 1]).2 (by decide)⟩

/-- Claim C9 (large-file fingerprinting): on a file longer than 4096
bytes the sampling loop succeeds and reads exactly the 8 bytes at the 4
sampled offsets (each step reads a chunk of `8 / 4 = 2` bytes at the
current offset, then seeks forward by `length / 4` relative to the
position after the read); the fingerprint is packed from those bytes
plus the length, and it depends only on those sampled offsets — the rest
of the file is never read. -/
theorem claim_C9_large_file (c : Contents) (h : 4096 < c.length) :
    largeSample c = some ((largeSamplePositions c.length).map (fun i => c.getD i 0)) ∧
    (largeSamplePositions c.length).length = 4 * (8 / 4) ∧
    fingerprintContents c =
      some (packKey ((largeSamplePositions c.length).map (fun i => c.getD i 0)), c.length) ∧
    ∀ c2 : Contents, c2.length = c.length →
      (∀ i ∈ largeSamplePositions c.length, c2.getD i 0 = c.getD i 0) →
      fingerprintContents c2 = fingerprintContents c := by
  refine ⟨largeSample_eq h, rfl, fingerprint_large h, ?_⟩
  intro c2 hlen hagree
  have h2 : 4096 < c2.length := by omega
  rw [fingerprint_large h2, fingerprint_large h, hlen]
  have hmap : (largeSamplePositions c.length).map (fun i => c2.getD i 0) =
      (largeSamplePositions c.length).map (fun i => c.getD i 0) :=
    List.map_congr_left hagree
  rw [hmap]

/-- Witness for C9 at a concrete 4200-byte file. -/
theorem claim_C9_witness :
    4096 < bigC.length ∧
    largeSample bigC = some ((largeSamplePositions bigC.length).map (fun i => bigC.getD i 0)) :=
  ⟨by rw [bigC, List.length_replicate]; omega,
   (claim_C9_large_file bigC (by rw [bigC, List.length_replicate]; omega)).1⟩

/-- Claim C10 (single-file short-circuit): on any one-element input,
`get_copies` returns that path as a single singleton group with an empty
error list, for every filesystem — in particular without reading the
path, readable or not. -/
theorem claim_C10_single (fs : FS) (p : Path) : get_copies fs [p] = ([[p]], []) := rfl


end DetectDup
